import Mathlib

/-!
Verification of the deoxys state-commitment layer.

This file gives a shallow embedding of the commitment engine
(`crates/client/sync/src/commitments/lib.rs`) and of the Keyed
Store / Trie Database Adapter (`crates/client/db/src/bonsai_db.rs`),
and proves or refutes the specification's claims about them.

Modelling conventions:
- Starknet field elements (`Felt252Wrapper`, `StarkFelt`, `FieldElement`,
  `Felt`) are modelled as `Nat`.  The translated code performs no field
  arithmetic on them: it only compares them, looks them up in maps, and
  feeds them to hash functions, so an injective carrier is faithful.
  Byte-string-to-field conversions (`from_bytes_be` and friends) are
  value-preserving on the constants involved (all below the Stark prime),
  hence modelled by big-endian byte evaluation / the identity.
- The Pedersen and Poseidon hashers (`mp_hashers`, outside `src/`) and the
  bonsai-trie root computation (an external collaborator crate per the
  spec) are abstract function parameters, bundled in `TrieHashers`: the
  spec fixes only the composition structure built on top of them, and the
  trie collaborator's contract is that a root is a function of the logical
  key-value contents of the trie.
- `IndexMap`s are modelled as association lists (insertion order is the
  list order); lookup is `List.lookup`.
- Rust panics (`unwrap` / `expect` / `unreachable!`) are modelled by
  `Option`, with `none` for the panic.
-/

/-- Field elements are modelled as naturals (see the header: the embedded
code performs no field arithmetic, only equality tests, map lookups and
abstract hashing). -/
abbrev Felt := Nat

/-- Big-endian evaluation of a byte string as a natural number. -/
def beBytes (l : List Nat) : Nat := l.foldl (fun a b => a * 256 + b) 0

/-- Bytes of the ASCII string STARKNET_STATE_V0, the domain-separation
prefix bytes that `calculate_state_root` feeds to
`Felt252Wrapper::try_from("STARKNET_STATE_V0".as_bytes())`. -/
def STARKNET_STATE_V0_BYTES : List Nat :=
  [0x53, 0x54, 0x41, 0x52, 0x4b, 0x4e, 0x45, 0x54, 0x5f,
   0x53, 0x54, 0x41, 0x54, 0x45, 0x5f, 0x56, 0x30]

/-- Modelled from the spec: `Felt252Wrapper::try_from` (crate `mp_felt`,
not under `src/`) interprets a short ASCII byte string as a big-endian
field element; on the 17-byte constant above (value below the Stark
prime) it succeeds with that value. -/
def STARKNET_STATE_V0 : Felt := beBytes STARKNET_STATE_V0_BYTES

/-- Bytes of the ASCII string CONTRACT_CLASS_LEAF_V0, fed to
`FieldElement::from_byte_slice_be` to build the source's
`CONTRACT_CLASS_HASH_VERSION` lazy static. -/
def CONTRACT_CLASS_LEAF_V0_BYTES : List Nat :=
  [0x43, 0x4f, 0x4e, 0x54, 0x52, 0x41, 0x43, 0x54, 0x5f, 0x43, 0x4c,
   0x41, 0x53, 0x53, 0x5f, 0x4c, 0x45, 0x41, 0x46, 0x5f, 0x56, 0x30]

/-- The source's `CONTRACT_CLASS_HASH_VERSION` constant
(`FieldElement::from_byte_slice_be("CONTRACT_CLASS_LEAF_V0".as_bytes())`,
a 22-byte value below the Stark prime, so the conversion is big-endian
byte evaluation). -/
def CONTRACT_CLASS_HASH_VERSION : Felt := beBytes CONTRACT_CLASS_LEAF_V0_BYTES

/-- The abstract cryptographic collaborators of the commitment engine:
the two hashers of `mp_hashers` and the root computation of the
bonsai-trie collaborator (a trie root is a function of the logical
key-to-value contents of the trie, per the collaborator contract of
spec section 6). -/
structure TrieHashers where
  pedersen : Felt → Felt → Felt
  poseidon2 : Felt → Felt → Felt
  poseidonMany : List Felt → Felt
  contractRootFn : (Felt → Option Felt) → Felt
  storageRootFn : (Felt → Option Felt) → Felt
  classRootFn : (Felt → Option Felt) → Felt

/-- blockifier's `CommitmentStateDiff`: four `IndexMap`s, modelled as
association lists in insertion order. -/
structure CommitmentStateDiff where
  address_to_class_hash : List (Felt × Felt)
  address_to_nonce : List (Felt × Felt)
  storage_updates : List (Felt × List (Felt × Felt))
  class_hash_to_compiled_class_hash : List (Felt × Felt)

/-- Prior committed chain state visible to the commitment engine: the
storage-override lookup `contract_class_hash_by_address` (keyed by a
substrate block hash, modelled as `Nat`), which returns `none` when the
address has no recorded class hash, and — modelled from the spec ("absence
of an address in a mapping means unchanged for that attribute") — the
prior committed nonce of each contract, which the spec's nonce claims
refer to but which the source never reads. -/
structure PriorState where
  classHashOf : Nat → Felt → Option Felt
  nonceOf : Felt → Felt

/-- Translation of the source's `class_hash` helper: resolve a contract's
class hash from the diff if present, otherwise from the prior state's
override keyed by the substrate block hash (`unwrap`: `none` models the
panic), and `unreachable!()` when no block hash is available. -/
def class_hash (csd : CommitmentStateDiff) (prior : PriorState) (contract_address : Felt)
    (maybe_block_hash : Option Nat) : Option Felt :=
  match List.lookup contract_address csd.address_to_class_hash with
  | some ch => some ch
  | none =>
    match maybe_block_hash with
    | some block_hash => prior.classHashOf block_hash contract_address
    | none => none

/-- Translation of the source's `contract_state_leaf_hash`: resolve the
class hash, read the nonce from the diff defaulting to `Nonce::default()`
(zero) when absent, and compose the three-level Pedersen chain
`pedersen(pedersen(pedersen(class_hash, storage_root), nonce), 0)`.
The byte round-trips through `FieldElement` are value-preserving and
dropped. -/
def contract_state_leaf_hash (hs : TrieHashers) (csd : CommitmentStateDiff)
    (prior : PriorState) (contract_address : Felt) (storage_root : Felt)
    (maybe_block_hash : Option Nat) : Option Felt :=
  match class_hash csd prior contract_address maybe_block_hash with
  | none => none
  | some ch =>
    let nonce := (List.lookup contract_address csd.address_to_nonce).getD 0
    let h1 := hs.pedersen ch storage_root
    let h2 := hs.pedersen h1 nonce
    let h3 := hs.pedersen h2 0
    some h3

/-- Translation of the source's `calculate_state_root`, generic over the
hasher `H` exactly as the Rust function is generic over `H: HasherT`:
if the classes-trie root is zero return the contracts-trie root, else
hash `[STARKNET_STATE_V0, contracts_root, classes_root]` with
`H::compute_hash_on_elements`. -/
def calculate_state_root (H : List Felt → Felt)
    (contracts_trie_root : Felt) (classes_trie_root : Felt) : Felt :=
  let starknet_state_version := STARKNET_STATE_V0
  if classes_trie_root = 0 then
    contracts_trie_root
  else
    H [starknet_state_version, contracts_trie_root, classes_trie_root]

/-- C1: for all trie roots, `calculate_state_root` returns the
contracts-trie root unchanged when the classes-trie root is zero, and
otherwise the hash of the fixed STARKNET_STATE_V0 prefix, the contracts
root and the classes root, in that order; the prefix is the fixed
big-endian value of the ASCII bytes of STARKNET_STATE_V0. -/
theorem calculate_state_root_spec (H : List Felt → Felt) (c k : Felt) :
    (k = 0 → calculate_state_root H c k = c) ∧
    (k ≠ 0 → calculate_state_root H c k = H [STARKNET_STATE_V0, c, k]) ∧
    STARKNET_STATE_V0 = 0x535441524b4e45545f53544154455f5630 := by
  refine ⟨fun h => ?_, fun h => ?_, by decide⟩
  · simp [calculate_state_root, h]
  · simp [calculate_state_root, h]

/-- Witness for C1 at concrete inputs, on both sides of the zero test. -/
theorem calculate_state_root_spec_witness :
    calculate_state_root (fun l => l.length) 4 0 = 4 ∧
    calculate_state_root (fun l => l.length) 4 7 = 3 :=
  ⟨(calculate_state_root_spec (fun l => l.length) 4 0).1 rfl,
   (calculate_state_root_spec (fun l => l.length) 4 7).2.1 (by decide)⟩

/-- C2: whenever the class hash of a touched contract resolves to `C`
(from the diff if present, else from prior committed state), the
contracts-trie leaf hash computed for that contract with committed
storage root `S` and nonce `N` (the diff's nonce, zero when absent) is
the fixed three-level Pedersen composition
`pedersen(pedersen(pedersen(C, S), N), 0)`. -/
theorem contract_state_leaf_hash_spec (hs : TrieHashers) (csd : CommitmentStateDiff)
    (prior : PriorState) (a S : Felt) (mbh : Option Nat) (C : Felt)
    (h : class_hash csd prior a mbh = some C) :
    contract_state_leaf_hash hs csd prior a S mbh =
      some (hs.pedersen (hs.pedersen (hs.pedersen C S)
        ((List.lookup a csd.address_to_nonce).getD 0)) 0) := by
  simp [contract_state_leaf_hash, h]

/-- Witness for C2: a concrete diff where address 1 has class hash 9 and
nonce 6, with storage root 5. -/
theorem contract_state_leaf_hash_spec_witness :
    contract_state_leaf_hash
      { pedersen := fun x y => 2 * x + 3 * y + 1, poseidon2 := fun _ _ => 0,
        poseidonMany := fun _ => 0, contractRootFn := fun _ => 0,
        storageRootFn := fun _ => 0, classRootFn := fun _ => 0 }
      { address_to_class_hash := [(1, 9)], address_to_nonce := [(1, 6)],
        storage_updates := [], class_hash_to_compiled_class_hash := [] }
      { classHashOf := fun _ _ => none, nonceOf := fun _ => 0 } 1 5 none =
      some (2 * (2 * (2 * 9 + 3 * 5 + 1) + 3 * 6 + 1) + 3 * 0 + 1) := by
  have h := contract_state_leaf_hash_spec
    { pedersen := fun x y => 2 * x + 3 * y + 1, poseidon2 := fun _ _ => 0,
      poseidonMany := fun _ => 0, contractRootFn := fun _ => 0,
      storageRootFn := fun _ => 0, classRootFn := fun _ => 0 }
    { address_to_class_hash := [(1, 9)], address_to_nonce := [(1, 6)],
      storage_updates := [], class_hash_to_compiled_class_hash := [] }
    { classHashOf := fun _ _ => none, nonceOf := fun _ => 0 } 1 5 none 9 rfl
  simpa using h

/-!
The Keyed Store and Trie Database Adapter
(`crates/client/db/src/bonsai_db.rs`).

Keys and values are byte strings, modelled as `List Nat`.  RocksDB
itself is the external storage collaborator: its per-call outcomes
(point reads, the prefix-seek iterator stream, batch writes) appear as
explicit inputs of type `Except DbError _`, so that the claims about
error propagation quantify over every behaviour the backend can exhibit.
-/

/-- Byte strings (RocksDB keys and values). -/
abbrev Bytes := List Nat

/-- Storage-layer error (`BonsaiDbError`), carrying an opaque code. -/
abbrev DbError := Nat

/-- Translation of the `iter.map_while(...)` combinator used by
`get_by_prefix`: map elements until the closure first returns `None`,
then stop. -/
def map_while (f : α → Option β) : List α → List β
  | [] => []
  | a :: as =>
    match f a with
    | some b => b :: map_while f as
    | none => []

/-- Translation of `BonsaiDb::get`: `Ok(self.db.get_cf(..)?)` — the raw
point-read outcome is propagated as is. -/
def bonsai_get (rawGet : Except DbError (Option Bytes)) : Except DbError (Option Bytes) :=
  match rawGet with
  | Except.error e => Except.error e
  | Except.ok v => Except.ok v

/-- Translation of `BonsaiDb::contains`:
`Ok(self.db.get_cf(..).map(|value| value.is_some())?)`. -/
def bonsai_contains (rawGet : Except DbError (Option Bytes)) : Except DbError Bool :=
  match rawGet with
  | Except.error e => Except.error e
  | Except.ok v => Except.ok v.isSome

/-- Translation of `BonsaiDb::insert` without a caller batch: read the
old value with `?`, write the new value with `?`, return the old value. -/
def bonsai_insert (rawGet : Except DbError (Option Bytes)) (rawPut : Except DbError Unit) :
    Except DbError (Option Bytes) :=
  match rawGet with
  | Except.error e => Except.error e
  | Except.ok old =>
    match rawPut with
    | Except.error e => Except.error e
    | Except.ok _ => Except.ok old

/-- Translation of `BonsaiDb::remove` without a caller batch: read the
old value with `?`, delete with `?`, return the old value. -/
def bonsai_remove (rawGet : Except DbError (Option Bytes)) (rawDelete : Except DbError Unit) :
    Except DbError (Option Bytes) :=
  match rawGet with
  | Except.error e => Except.error e
  | Except.ok old =>
    match rawDelete with
    | Except.error e => Except.error e
    | Except.ok _ => Except.ok old

/-- Translation of `BonsaiDb::write_batch`: `Ok(self.db.write(batch)?)`. -/
def bonsai_write_batch (rawWrite : Except DbError Unit) : Except DbError Unit :=
  match rawWrite with
  | Except.error e => Except.error e
  | Except.ok _ => Except.ok ()

/-- Translation of the body of `BonsaiDb::get_by_prefix` applied to the
iterator stream produced by
`iterator_cf(IteratorMode::From(prefix, Forward))`: `map_while` keeps
`Ok` entries whose key starts with the prefix and stops at the first
non-matching key or iterator error, and the collected vector is returned
wrapped in `Ok`. -/
def get_by_prefix_result (iter : List (Except DbError (Bytes × Bytes))) (pre : Bytes) :
    Except DbError (List (Bytes × Bytes)) :=
  Except.ok (map_while (fun kv =>
    match kv with
    | Except.ok (key, value) =>
      if List.isPrefixOf pre key then some (key, value) else none
    | Except.error _ => none) iter)

/-- Translation of the scan loop of `BonsaiDb::remove_by_prefix`: walk
the iterator stream, collect into the delete batch every key that starts
with the prefix, and `break` at the first non-matching key or iterator
error. -/
def rbp_deletes (pre : Bytes) : List (Except DbError (Bytes × Bytes)) → List Bytes
  | [] => []
  | Except.error _ :: _ => []
  | Except.ok (key, _) :: rest =>
    if List.isPrefixOf pre key then key :: rbp_deletes pre rest else []

/-- Translation of `BonsaiDb::remove_by_prefix`: build the delete batch
from the iterator stream, then `self.write_batch(batch)?`, whose raw
outcome is supplied by the backend. -/
def remove_by_prefix_result (iter : List (Except DbError (Bytes × Bytes))) (pre : Bytes)
    (rawWrite : List Bytes → Except DbError Unit) : Except DbError Unit :=
  match rawWrite (rbp_deletes pre iter) with
  | Except.error e => Except.error e
  | Except.ok _ => Except.ok ()

/-- State of the `BonsaiDb` adapter: the live RocksDB contents (one
logical column, keys are byte strings) and the snapshot table
`BTreeMap<BasicId, SnapshotWithThreadMode>`, each snapshot being the
frozen live contents captured when `snapshot(id)` ran. -/
structure BonsaiDbState where
  live : Bytes → Option Bytes
  snapshots : Nat → Option (Bytes → Option Bytes)

/-- Translation of `BonsaiPersistentDatabase::snapshot` for `BonsaiDb`:
capture the current live contents and store them in the table under
`id`, overwriting any prior snapshot at that id. -/
def bonsai_snapshot (st : BonsaiDbState) (id : Nat) : BonsaiDbState :=
  { st with snapshots := fun i => if i = id then some st.live else st.snapshots i }

/-- A `BonsaiTransaction`: an optimistic RocksDB transaction carrying its
own uncommitted write set.  The source's `transaction(id)` builds a
`ReadOptions` pinned to the stored snapshot but drops it without ever
attaching it to the transaction, so reads that miss the write set fall
through to the latest committed (live) data, not to the snapshot. -/
structure BonsaiTransactionState where
  writes : Bytes → Option (Option Bytes)

/-- Translation of `BonsaiPersistentDatabase::transaction`: return
`None` when no snapshot exists at `id`; otherwise a fresh transaction
with an empty write set.  Faithful to the source, the pinned snapshot is
looked up but has no effect on the transaction that is returned (the
`read_options` local is constructed and discarded). -/
def bonsai_transaction (st : BonsaiDbState) (id : Nat) : Option BonsaiTransactionState :=
  match st.snapshots id with
  | some _ => some { writes := fun _ => none }
  | none => none

/-- Translation of `BonsaiTransaction::get`
(`Ok(self.txn.get_cf(&handle, key)?)` with default read options): the
transaction's own pending write if any, else the latest committed live
value of the store. -/
def bonsai_transaction_get (st : BonsaiDbState) (t : BonsaiTransactionState)
    (key : Bytes) : Option Bytes :=
  match t.writes key with
  | some v => v
  | none => st.live key

/-- A direct committed write to the live store (`self.db.put_cf`), as
performed by `BonsaiDb::insert` without a batch. -/
def bonsai_live_put (st : BonsaiDbState) (key value : Bytes) : BonsaiDbState :=
  { st with live := fun x => if x = key then some value else st.live x }

/-- C5 (failing run): with the store holding key [1] at value [10], take
`snapshot(5)`, write [1] to value [20] in the live store, then open
`transaction(5)`.  The snapshot table correctly froze the value [10],
but the transaction's `get([1])` returns the live value [20]: the live
write is visible through the transaction, violating snapshot
isolation (reads are never pinned to the stored snapshot because the
source drops the `ReadOptions` it builds from it). -/
theorem snapshot_isolation_violated :
    bonsai_transaction
      (bonsai_live_put (bonsai_snapshot
        { live := fun k => if k = [1] then some [10] else none,
          snapshots := fun _ => none } 5) [1] [20]) 5 =
      some { writes := fun _ => none } ∧
    ((bonsai_snapshot
        { live := fun k => if k = [1] then some [10] else none,
          snapshots := fun _ => none } 5).snapshots 5).map (fun v => v [1]) =
      some (some [10]) ∧
    bonsai_transaction_get
      (bonsai_live_put (bonsai_snapshot
        { live := fun k => if k = [1] then some [10] else none,
          snapshots := fun _ => none } 5) [1] [20])
      { writes := fun _ => none } [1] = some [20] := by
  refine ⟨?_, ?_, ?_⟩
  · rfl
  · rfl
  · rfl

/-- C7 (counterexample): an iterator stream that yields one matching
entry under the prefix [1], then an I/O error, then another matching
entry.  `get_by_prefix` returns a truncated successful result instead of
propagating the error, and `remove_by_prefix` silently stops its delete
batch at the error (key [1, 2] matches the prefix but is not deleted)
and reports success. -/
theorem get_by_prefix_swallows_error :
    get_by_prefix_result
      [Except.ok ([1, 1], [0]), Except.error 3, Except.ok ([1, 2], [0])] [1] =
      Except.ok [([1, 1], [0])] ∧
    rbp_deletes [1]
      [Except.ok ([1, 1], [0]), Except.error 3, Except.ok ([1, 2], [0])] = [[1, 1]] ∧
    remove_by_prefix_result
      [Except.ok ([1, 1], [0]), Except.error 3, Except.ok ([1, 2], [0])] [1]
      (fun _ => Except.ok ()) = Except.ok () := by
  refine ⟨?_, ?_, ?_⟩
  · rfl
  · rfl
  · rfl

/-- C7 (amended): the point operations `get`, `contains`, `insert`,
`remove` and `write_batch` propagate every underlying storage error to
the caller, and `remove_by_prefix` propagates a failure of its final
batch write; but a storage error raised mid-iteration by the prefix
iterator is not propagated: `get_by_prefix` and the scan loop of
`remove_by_prefix` behave on a stream that fails after `xs` exactly as
on the stream `xs` alone, silently truncating the scan. -/
theorem map_while_append_stop (f : α → Option β) (x : α) (hx : f x = none)
    (xs ys : List α) : map_while f (xs ++ x :: ys) = map_while f xs := by
  induction xs with
  | nil => simp [map_while, hx]
  | cons a as ih =>
    simp only [List.cons_append, map_while]
    cases h : f a with
    | none => rfl
    | some b => exact congrArg (fun l => b :: l) ih

theorem rbp_deletes_append_stop (pre : Bytes) (e : DbError)
    (xs ys : List (Except DbError (Bytes × Bytes))) :
    rbp_deletes pre (xs ++ Except.error e :: ys) = rbp_deletes pre xs := by
  induction xs with
  | nil => rfl
  | cons x xs ih =>
    cases x with
    | error e2 => rfl
    | ok kv =>
      obtain ⟨k, v⟩ := kv
      simp only [List.cons_append, rbp_deletes]
      by_cases h : List.isPrefixOf pre k
      · rw [if_pos h, if_pos h]
        exact congrArg (fun l => k :: l) ih
      · rw [if_neg h, if_neg h]

theorem storage_error_propagation (e : DbError) (old : Option Bytes)
    (raw : Except DbError Unit) (pre : Bytes)
    (xs ys : List (Except DbError (Bytes × Bytes))) :
    bonsai_get (Except.error e) = Except.error e ∧
    bonsai_contains (Except.error e) = Except.error e ∧
    bonsai_insert (Except.error e) raw = Except.error e ∧
    bonsai_insert (Except.ok old) (Except.error e) = Except.error e ∧
    bonsai_remove (Except.error e) raw = Except.error e ∧
    bonsai_remove (Except.ok old) (Except.error e) = Except.error e ∧
    bonsai_write_batch (Except.error e) = Except.error e ∧
    remove_by_prefix_result xs pre (fun _ => Except.error e) = Except.error e ∧
    get_by_prefix_result (xs ++ Except.error e :: ys) pre = get_by_prefix_result xs pre ∧
    rbp_deletes pre (xs ++ Except.error e :: ys) = rbp_deletes pre xs := by
  refine ⟨rfl, rfl, rfl, rfl, rfl, rfl, rfl, rfl, ?_, ?_⟩
  · unfold get_by_prefix_result
    rw [map_while_append_stop _ (Except.error e) rfl]
  · exact rbp_deletes_append_stop pre e xs ys

/-- Strict bytewise lexicographic order on byte strings: the order in
which a RocksDB column stores and iterates its keys. -/
def keyLt : Bytes → Bytes → Bool
  | [], [] => false
  | [], _ :: _ => true
  | _ :: _, [] => false
  | a :: as, b :: bs => if a < b then true else if a = b then keyLt as bs else false

theorem keyLt_cons (x y : Nat) (xs ys : Bytes) :
    keyLt (x :: xs) (y :: ys) = true ↔ (x < y ∨ (x = y ∧ keyLt xs ys = true)) := by
  simp only [keyLt]
  split_ifs with h1 h2
  · simp [h1]
  · simp [h1, h2]
  · simp [h1, h2]

theorem keyLt_irrefl (k : Bytes) : keyLt k k = false := by
  induction k with
  | nil => rfl
  | cons a as ih => simp [keyLt, ih]

theorem keyLt_trans {a : Bytes} : ∀ {b c : Bytes},
    keyLt a b = true → keyLt b c = true → keyLt a c = true := by
  induction a with
  | nil =>
    intro b c h1 h2
    cases b with
    | nil => simp [keyLt] at h1
    | cons y ys =>
      cases c with
      | nil => simp [keyLt] at h2
      | cons z zs => rfl
  | cons x xs ih =>
    intro b c h1 h2
    cases b with
    | nil => simp [keyLt] at h1
    | cons y ys =>
      cases c with
      | nil => simp [keyLt] at h2
      | cons z zs =>
        rw [keyLt_cons] at h1 h2 ⊢
        rcases h1 with h1 | ⟨h1, h1'⟩
        · rcases h2 with h2 | ⟨h2, h2'⟩
          · exact Or.inl (Nat.lt_trans h1 h2)
          · exact Or.inl (h2 ▸ h1)
        · rcases h2 with h2 | ⟨h2, h2'⟩
          · exact Or.inl (h1 ▸ h2)
          · exact Or.inr ⟨h1.trans h2, ih h1' h2'⟩

/-- A key that starts with `pre` is not lexicographically below `pre`. -/
theorem keyLt_of_prefixOf {p : Bytes} : ∀ {k : Bytes},
    List.isPrefixOf p k = true → keyLt k p = false := by
  induction p with
  | nil =>
    intro k _
    cases k with
    | nil => rfl
    | cons b ks => rfl
  | cons a ps ih =>
    intro k h
    cases k with
    | nil => simp [List.isPrefixOf] at h
    | cons b ks =>
      simp only [List.isPrefixOf, Bool.and_eq_true, beq_iff_eq] at h
      obtain ⟨rfl, h2⟩ := h
      simp [keyLt, ih h2]

/-- Any key that starts with `pre` is lexicographically below any key
that is not below `pre` yet does not start with `pre`: the keys sharing
the prefix form the initial contiguous block of the seek range. -/
theorem keyLt_of_prefix_split {p : Bytes} : ∀ {k x : Bytes},
    keyLt k p = false → List.isPrefixOf p k = false → List.isPrefixOf p x = true →
    keyLt x k = true := by
  induction p with
  | nil =>
    intro k x _ h2 _
    simp [List.isPrefixOf] at h2
  | cons a ps ih =>
    intro k x h1 h2 h3
    cases k with
    | nil => simp [keyLt] at h1
    | cons b ks =>
      cases x with
      | nil => simp [List.isPrefixOf] at h3
      | cons c cs =>
        simp only [List.isPrefixOf, Bool.and_eq_true, beq_iff_eq] at h3
        obtain ⟨rfl, h3'⟩ := h3
        rw [← Bool.not_eq_true, keyLt_cons] at h1
        push_neg at h1
        simp only [List.isPrefixOf] at h2
        rw [keyLt_cons]
        by_cases hab : a = b
        · subst hab
          simp only [beq_self_eq_true, Bool.true_and] at h2
          exact Or.inr ⟨rfl, ih (Bool.not_eq_true _ ▸ h1.2 rfl) h2 h3'⟩
        · exact Or.inl (Nat.lt_of_le_of_ne h1.1 hab)

/-- The iterator stream produced by
`iterator_cf(IteratorMode::From(pre, Forward))` over a sorted column:
seek to the first key not lexicographically below `pre` and stream the
remainder of the column, error-free. -/
def store_iter (store : List (Bytes × Bytes)) (pre : Bytes) :
    List (Except DbError (Bytes × Bytes)) :=
  (store.dropWhile (fun kv => keyLt kv.1 pre)).map Except.ok

/-- Effect of `BonsaiDb::remove_by_prefix` on the column contents: the
keys collected in the delete batch are removed by the final
`write_batch`; every other entry is untouched. -/
def remove_by_prefix_store (store : List (Bytes × Bytes)) (pre : Bytes) :
    List (Bytes × Bytes) :=
  let dels := rbp_deletes pre (store_iter store pre)
  store.filter (fun kv => !(dels.contains kv.1))

theorem rbp_deletes_map_ok (pre : Bytes) (l : List (Bytes × Bytes)) :
    rbp_deletes pre (l.map Except.ok) =
      (l.takeWhile (fun kv => List.isPrefixOf pre kv.1)).map Prod.fst := by
  induction l with
  | nil => rfl
  | cons kv rest ih =>
    obtain ⟨k, v⟩ := kv
    simp only [List.map_cons, rbp_deletes, List.takeWhile_cons]
    by_cases h : List.isPrefixOf pre k
    · simp [h, ih]
    · simp [h]

theorem dropWhile_keys_ge (pre : Bytes) (store : List (Bytes × Bytes))
    (hsorted : store.Pairwise (fun a b => keyLt a.1 b.1 = true)) :
    ∀ kv ∈ store.dropWhile (fun kv => keyLt kv.1 pre), keyLt kv.1 pre = false := by
  induction store with
  | nil => intro kv h; simp [List.dropWhile] at h
  | cons a rest ih =>
    rcases List.pairwise_cons.mp hsorted with ⟨ha, hrest⟩
    intro kv hkv
    simp only [List.dropWhile_cons] at hkv
    by_cases hq : keyLt a.1 pre = true
    · rw [if_pos hq] at hkv
      exact ih hrest kv hkv
    · rw [if_neg hq] at hkv
      rcases List.mem_cons.mp hkv with rfl | hkv'
      · exact Bool.not_eq_true _ ▸ hq
      · cases hk : keyLt kv.1 pre
        · rfl
        · exact absurd (keyLt_trans (ha kv hkv') hk) hq

theorem takeWhile_eq_filter_of_sorted (pre : Bytes) (l : List (Bytes × Bytes))
    (hsorted : l.Pairwise (fun a b => keyLt a.1 b.1 = true))
    (hge : ∀ kv ∈ l, keyLt kv.1 pre = false) :
    l.takeWhile (fun kv => List.isPrefixOf pre kv.1) =
      l.filter (fun kv => List.isPrefixOf pre kv.1) := by
  induction l with
  | nil => rfl
  | cons a rest ih =>
    rcases List.pairwise_cons.mp hsorted with ⟨ha, hrest⟩
    simp only [List.takeWhile_cons, List.filter_cons]
    by_cases hpa : List.isPrefixOf pre a.1 = true
    · rw [if_pos hpa, if_pos hpa,
        ih hrest (fun kv hkv => hge kv (List.mem_cons_of_mem _ hkv))]
    · have hnone : ∀ kv ∈ rest, ¬ (List.isPrefixOf pre kv.1 = true) := by
        intro kv hkv hp
        have h1 := hge a (List.mem_cons_self _ _)
        have hx := keyLt_of_prefix_split h1 (Bool.not_eq_true _ ▸ hpa) hp
        have h2 := keyLt_trans (ha kv hkv) hx
        rw [keyLt_irrefl] at h2
        exact Bool.false_ne_true h2
      rw [if_neg hpa, if_neg hpa]
      exact (List.filter_eq_nil_iff.mpr hnone).symm

/-- C8: on a sorted column, `remove_by_prefix(pre)` deletes exactly the
entries whose key starts with `pre` and leaves every other entry
unchanged (in content and relative order), including keys adjacent in
lexicographic order that share only a partial prefix with `pre`. -/
theorem remove_by_prefix_exact (store : List (Bytes × Bytes)) (pre : Bytes)
    (hsorted : store.Pairwise (fun a b => keyLt a.1 b.1 = true)) :
    remove_by_prefix_store store pre =
      store.filter (fun kv => !(List.isPrefixOf pre kv.1)) := by
  unfold remove_by_prefix_store store_iter
  rw [rbp_deletes_map_ok,
    takeWhile_eq_filter_of_sorted pre _ (hsorted.sublist (List.dropWhile_sublist _))
      (dropWhile_keys_ge pre store hsorted)]
  apply List.filter_congr
  intro kv hkv
  congr 1
  simp only [List.contains, List.elem_eq_mem]
  cases hp : List.isPrefixOf pre kv.1
  · rw [decide_eq_false_iff_not]
    intro hmem
    rcases List.mem_map.mp hmem with ⟨b, hb, hb1⟩
    have hPb := (List.mem_filter.mp hb).2
    rw [hb1] at hPb
    rw [hp] at hPb
    exact Bool.false_ne_true hPb
  · rw [decide_eq_true_eq]
    apply List.mem_map_of_mem Prod.fst
    apply List.mem_filter.mpr
    refine ⟨?_, hp⟩
    have hsplit : kv ∈ store.takeWhile (fun kv => keyLt kv.1 pre) ++
        store.dropWhile (fun kv => keyLt kv.1 pre) := by
      rw [List.takeWhile_append_dropWhile]
      exact hkv
    rcases List.mem_append.mp hsplit with htk | hdp
    · have hq := List.mem_takeWhile_imp htk
      rw [keyLt_of_prefixOf hp] at hq
      exact absurd hq Bool.false_ne_true
    · exact hdp

/-- Witness for C8: a concrete sorted column containing keys with the
prefix [1, 2], keys sharing only the partial prefix [1], and a key past
the range; exactly the [1, 2]-prefixed entries are deleted. -/
theorem remove_by_prefix_exact_witness :
    List.Pairwise (fun a b => keyLt a.1 b.1 = true)
      [([1], [9]), ([1, 2], [8]), ([1, 2, 3], [7]), ([1, 3], [6]), ([2], [5])] ∧
    remove_by_prefix_store
      [([1], [9]), ([1, 2], [8]), ([1, 2, 3], [7]), ([1, 3], [6]), ([2], [5])] [1, 2] =
      List.filter (fun kv => !(List.isPrefixOf [1, 2] kv.1))
      [([1], [9]), ([1, 2], [8]), ([1, 2, 3], [7]), ([1, 3], [6]), ([2], [5])] :=
  ⟨by decide,
   remove_by_prefix_exact
     [([1], [9]), ([1, 2], [8]), ([1, 2, 3], [7]), ([1, 3], [6]), ([2], [5])] [1, 2]
     (by decide)⟩

/-!
The commitment pipeline of `update_state_root`.  The `StorageHandler`
(`mc_db::storage`, not under `src/`) is modelled from the spec: per the
Storage Handler lifecycle of spec section 4.3, `init` attaches a root if
absent, `insert`/`update` stage key-to-value changes into the working
view, and `commit` + `apply_changes` make exactly those staged changes
visible in the underlying store, after which `root()` reads the root of
the resulting trie contents.  A trie is therefore its logical
key-to-value map, and the versioned commit is the transition from the
prior map to the updated map.
-/

/-- Point update of a logical trie map. -/
def upd (m : Felt → Option Felt) (k v : Felt) : Felt → Option Felt :=
  fun x => if x = k then some v else m x

/-- Staging a batch of key-to-value pairs into a trie map, in list
order. -/
def updAll (m : Felt → Option Felt) (l : List (Felt × Felt)) : Felt → Option Felt :=
  l.foldl (fun m e => upd m e.1 e.2) m

/-- The committed tries before the block is applied: contracts trie
(address to leaf hash), one storage trie per contract address, and the
classes trie (class hash to leaf). -/
structure TrieState where
  contract_trie : Felt → Option Felt
  storage_tries : Felt → Felt → Option Felt
  class_trie : Felt → Option Felt

/-- Phase 1 of `contract_trie_root`: for one `(contract_address,
updates)` entry of `csd.storage_updates`, `storage_write.init` then
`storage_write.insert` of every key-to-value pair into that contract's
storage trie. -/
def applyContractStorage (t : Felt → Felt → Option Felt)
    (entry : Felt × List (Felt × Felt)) : Felt → Felt → Option Felt :=
  fun x => if x = entry.1 then updAll (t entry.1) entry.2 else t x

/-- Phase 1 of `contract_trie_root` over the whole diff, followed by
`storage_write.commit(block_number + 1)` and
`storage_write.apply_changes()`: the committed storage tries after the
loop. -/
def applyStorageUpdates (t : Felt → Felt → Option Felt)
    (l : List (Felt × List (Felt × Felt))) : Felt → Felt → Option Felt :=
  l.foldl applyContractStorage t

/-- Option-valued mapping over a list: `some` of the image when every
element maps to `some`, `none` as soon as one element fails (the Rust
code panics inside the per-leaf closure; `none` models the panic). -/
def mapOpt (f : α → Option β) : List α → Option (List β)
  | [] => some []
  | a :: as =>
    match f a, mapOpt f as with
    | some b, some bs => some (b :: bs)
    | _, _ => none

/-- Phase 2 of `contract_trie_root` for one touched contract address:
read the freshly committed storage root (`storage_read.root`), compute
the leaf hash, and pair it with the address. -/
def leafEntry (hs : TrieHashers) (csd : CommitmentStateDiff) (prior : PriorState)
    (storageAfter : Felt → Felt → Option Felt) (maybe_block_hash : Option Nat)
    (contract_address : Felt) : Option (Felt × Felt) :=
  match contract_state_leaf_hash hs csd prior contract_address
      (hs.storageRootFn (storageAfter contract_address)) maybe_block_hash with
  | some leaf => some (contract_address, leaf)
  | none => none

/-- Phase 2 of `contract_trie_root` over the diff: map every entry of
`csd.storage_updates` to its `(address, leaf_hash)` pair (the rayon
`par_bridge` fan-out; the collected order is irrelevant downstream, see
the determinism theorem). -/
def collectLeaves (hs : TrieHashers) (csd : CommitmentStateDiff) (prior : PriorState)
    (st : TrieState) (maybe_block_hash : Option Nat) : Option (List (Felt × Felt)) :=
  mapOpt
    (fun entry => leafEntry hs csd prior
      (applyStorageUpdates st.storage_tries csd.storage_updates) maybe_block_hash entry.1)
    csd.storage_updates

/-- Translation of the source's `contract_trie_root`: stage and commit
the contract storage changes, compute all leaf hashes from the committed
storage roots, `contract_write.update` the batch of leaves into the
contracts trie, commit, apply changes and read the root back. -/
def contract_trie_root (hs : TrieHashers) (csd : CommitmentStateDiff)
    (prior : PriorState) (st : TrieState) (maybe_block_hash : Option Nat) : Option Felt :=
  match collectLeaves hs csd prior st maybe_block_hash with
  | some leaves => some (hs.contractRootFn (updAll st.contract_trie leaves))
  | none => none

/-- The classes-trie leaf batch of the source's `class_trie_root`: for
every `(class_hash, compiled_class_hash)` pair of the diff, the leaf
`poseidon_hash(CONTRACT_CLASS_HASH_VERSION, compiled_class_hash)`. -/
def classLeaves (hs : TrieHashers) (csd : CommitmentStateDiff) : List (Felt × Felt) :=
  csd.class_hash_to_compiled_class_hash.map
    (fun e => (e.1, hs.poseidon2 CONTRACT_CLASS_HASH_VERSION e.2))

/-- The classes trie after `class_write.init`, `class_write.update` of
the leaf batch, `commit(block_number + 1)` and `apply_changes`. -/
def classTrieAfter (hs : TrieHashers) (csd : CommitmentStateDiff)
    (t : Felt → Option Felt) : Felt → Option Felt :=
  updAll t (classLeaves hs csd)

/-- Translation of the source's `class_trie_root`: update the classes
trie with the leaf batch and read the root back. -/
def class_trie_root (hs : TrieHashers) (csd : CommitmentStateDiff)
    (st : TrieState) : Felt :=
  hs.classRootFn (classTrieAfter hs csd st.class_trie)

/-- Translation of the source's `update_state_root`: compute the
contracts-trie and classes-trie roots (a fork-join pair; the `expect`
on the contracts side is modelled by `Option`) and compose them with
`calculate_state_root::<PoseidonHasher>`.  The block number versions the
commits and does not enter the resulting roots. -/
def update_state_root (hs : TrieHashers) (csd : CommitmentStateDiff)
    (prior : PriorState) (st : TrieState) (block_number : Nat)
    (maybe_block_hash : Option Nat) : Option Felt :=
  match contract_trie_root hs csd prior st maybe_block_hash with
  | some c => some (calculate_state_root hs.poseidonMany c (class_trie_root hs csd st))
  | none => none

theorem updAll_nil (m : Felt → Option Felt) : updAll m [] = m := rfl

theorem updAll_lookup_not_mem (l : List (Felt × Felt)) (m : Felt → Option Felt)
    (k : Felt) (hk : k ∉ l.map Prod.fst) : updAll m l k = m k := by
  induction l generalizing m with
  | nil => rfl
  | cons e rest ih =>
    simp only [List.map_cons, List.mem_cons, not_or] at hk
    show updAll (upd m e.1 e.2) rest k = m k
    rw [ih _ hk.2]
    simp [upd, hk.1]

theorem updAll_lookup_mem (l : List (Felt × Felt)) (m : Felt → Option Felt)
    (k v : Felt) (hnd : (l.map Prod.fst).Nodup) (hm : (k, v) ∈ l) :
    updAll m l k = some v := by
  induction l generalizing m with
  | nil => simp at hm
  | cons e rest ih =>
    simp only [List.map_cons, List.nodup_cons] at hnd
    rcases List.mem_cons.mp hm with heq | hmem
    · show updAll (upd m e.1 e.2) rest k = some v
      have hk : k ∉ rest.map Prod.fst := by
        rw [← heq] at hnd
        exact hnd.1
      rw [updAll_lookup_not_mem rest _ k hk]
      simp [upd, ← heq]
    · exact ih _ hnd.2 hmem

/-- C9: every `(class_hash, compiled_class_hash)` pair of the diff's
declared-classes map produces, in the classes trie that
`class_trie_root` commits and merges, the leaf
`poseidon_hash(CONTRACT_CLASS_HASH_VERSION, compiled_class_hash)` at key
`class_hash`, and the returned root is the trie root of exactly that
updated trie; the version constant is the big-endian value of the ASCII
bytes of CONTRACT_CLASS_LEAF_V0. -/
theorem class_trie_root_spec (hs : TrieHashers) (csd : CommitmentStateDiff)
    (st : TrieState)
    (hnd : (csd.class_hash_to_compiled_class_hash.map Prod.fst).Nodup)
    (ch cch : Felt) (hmem : (ch, cch) ∈ csd.class_hash_to_compiled_class_hash) :
    classTrieAfter hs csd st.class_trie ch =
      some (hs.poseidon2 CONTRACT_CLASS_HASH_VERSION cch) ∧
    class_trie_root hs csd st = hs.classRootFn (classTrieAfter hs csd st.class_trie) ∧
    CONTRACT_CLASS_HASH_VERSION = 0x434f4e54524143545f434c4153535f4c4541465f5630 := by
  refine ⟨?_, rfl, by decide⟩
  unfold classTrieAfter
  apply updAll_lookup_mem
  · unfold classLeaves
    rw [List.map_map]
    exact hnd
  · exact List.mem_map_of_mem _ hmem

/-- Witness for C9: one declared class (3, 4) over an empty classes
trie. -/
theorem class_trie_root_spec_witness :
    ([(3, 4)].map (Prod.fst (α := Felt) (β := Felt))).Nodup ∧
    classTrieAfter
      { pedersen := fun _ _ => 0, poseidon2 := fun x y => 5 * x + y,
        poseidonMany := fun _ => 0, contractRootFn := fun _ => 0,
        storageRootFn := fun _ => 0, classRootFn := fun _ => 0 }
      { address_to_class_hash := [], address_to_nonce := [],
        storage_updates := [], class_hash_to_compiled_class_hash := [(3, 4)] }
      (fun _ => none) 3 = some (5 * CONTRACT_CLASS_HASH_VERSION + 4) :=
  ⟨by decide,
   (class_trie_root_spec
     { pedersen := fun _ _ => 0, poseidon2 := fun x y => 5 * x + y,
       poseidonMany := fun _ => 0, contractRootFn := fun _ => 0,
       storageRootFn := fun _ => 0, classRootFn := fun _ => 0 }
     { address_to_class_hash := [], address_to_nonce := [],
       storage_updates := [], class_hash_to_compiled_class_hash := [(3, 4)] }
     { contract_trie := fun _ => none, storage_tries := fun _ _ => none,
       class_trie := fun _ => none }
     (by decide) 3 4 (by decide)).1⟩

/-- Hashers for the C3 counterexample: the classes-trie root reads the
leaf stored at key 0 and the contracts-trie root is constantly 7. -/
def hs3 : TrieHashers :=
  { pedersen := fun _ _ => 0, poseidon2 := fun _ _ => 0,
    poseidonMany := fun l => l.foldl (fun a b => a + b) 0 + 1,
    contractRootFn := fun _ => 7, storageRootFn := fun _ => 0,
    classRootFn := fun m => (m 0).getD 0 }

/-- Prior trie state for the C3 counterexample: the classes trie is
non-empty (a class was declared in an earlier block), so its root is
nonzero. -/
def st3 : TrieState :=
  { contract_trie := fun _ => none, storage_tries := fun _ _ => none,
    class_trie := fun k => if k = 0 then some 5 else none }

/-- The empty state diff. -/
def csd3 : CommitmentStateDiff :=
  { address_to_class_hash := [], address_to_nonce := [],
    storage_updates := [], class_hash_to_compiled_class_hash := [] }

/-- Empty prior state. -/
def prior3 : PriorState := { classHashOf := fun _ _ => none, nonceOf := fun _ => 0 }

/-- C3 (counterexample): a diff with an empty class-declaration map does
not in general yield `state_root = contract_trie_root`: when the classes
trie already has a nonzero root from earlier declarations,
`update_state_root` returns the Poseidon composition, not the
contracts-trie root (7 here). -/
theorem update_state_root_empty_classes_counterexample :
    csd3.class_hash_to_compiled_class_hash = [] ∧
    contract_trie_root hs3 csd3 prior3 st3 none = some 7 ∧
    update_state_root hs3 csd3 prior3 st3 10 none ≠ some 7 := by
  refine ⟨rfl, rfl, ?_⟩
  decide

/-- C3 (amended): a diff whose class-declaration map is empty, applied
to a state whose classes-trie root is zero (no classes ever declared),
makes `update_state_root` return exactly the contracts-trie root. -/
theorem update_state_root_empty_classes (hs : TrieHashers) (csd : CommitmentStateDiff)
    (prior : PriorState) (st : TrieState) (bn : Nat) (mbh : Option Nat)
    (h1 : csd.class_hash_to_compiled_class_hash = [])
    (h2 : hs.classRootFn st.class_trie = 0) :
    update_state_root hs csd prior st bn mbh = contract_trie_root hs csd prior st mbh := by
  unfold update_state_root
  cases hc : contract_trie_root hs csd prior st mbh with
  | none => rfl
  | some c =>
    unfold class_trie_root classTrieAfter classLeaves
    rw [h1]
    simp [updAll, calculate_state_root, h2]

/-- Witness for C3 (amended): empty diff over an empty store. -/
theorem update_state_root_empty_classes_witness :
    csd3.class_hash_to_compiled_class_hash = [] ∧
    update_state_root
      { pedersen := fun _ _ => 0, poseidon2 := fun _ _ => 0,
        poseidonMany := fun l => l.foldl (fun a b => a + b) 0 + 1,
        contractRootFn := fun _ => 7, storageRootFn := fun _ => 0,
        classRootFn := fun _ => 0 }
      csd3 prior3
      { contract_trie := fun _ => none, storage_tries := fun _ _ => none,
        class_trie := fun _ => none } 10 none =
      contract_trie_root
        { pedersen := fun _ _ => 0, poseidon2 := fun _ _ => 0,
          poseidonMany := fun l => l.foldl (fun a b => a + b) 0 + 1,
          contractRootFn := fun _ => 7, storageRootFn := fun _ => 0,
          classRootFn := fun _ => 0 }
        csd3 prior3
        { contract_trie := fun _ => none, storage_tries := fun _ _ => none,
          class_trie := fun _ => none } none :=
  ⟨rfl,
   update_state_root_empty_classes _ csd3 prior3 _ 10 none rfl rfl⟩

/-- Hashers for the C6 run: a Pedersen that distinguishes its inputs. -/
def hs6 : TrieHashers :=
  { pedersen := fun x y => 2 * x + 3 * y + 1, poseidon2 := fun _ _ => 0,
    poseidonMany := fun _ => 0, contractRootFn := fun _ => 0,
    storageRootFn := fun _ => 0, classRootFn := fun _ => 0 }

/-- The C6 diff: contract 5 has a storage update and a class hash in the
diff but no entry in the nonce map. -/
def csd6 : CommitmentStateDiff :=
  { address_to_class_hash := [(5, 11)], address_to_nonce := [],
    storage_updates := [(5, [(1, 2)])], class_hash_to_compiled_class_hash := [] }

/-- The C6 prior state: contract 5 has committed nonce 7. -/
def prior6 : PriorState :=
  { classHashOf := fun _ _ => none, nonceOf := fun a => if a = 5 then 7 else 0 }

/-- C6: contract address 5 is absent from the diff's nonce map and its
prior committed nonce is 7, yet the leaf-hash computation hashes the
default nonce 0 (`Nonce::default()`), not the prior committed nonce:
the code's leaf differs from the leaf the claim prescribes. -/
theorem leaf_hash_uses_default_nonce :
    List.lookup 5 csd6.address_to_nonce = none ∧
    prior6.nonceOf 5 = 7 ∧
    contract_state_leaf_hash hs6 csd6 prior6 5 3 none =
      some (hs6.pedersen (hs6.pedersen (hs6.pedersen 11 3) 0) 0) ∧
    contract_state_leaf_hash hs6 csd6 prior6 5 3 none ≠
      some (hs6.pedersen (hs6.pedersen (hs6.pedersen 11 3) (prior6.nonceOf 5)) 0) := by
  refine ⟨rfl, rfl, rfl, by decide⟩

/-- One entry of the state update's deployed-contracts list
(`mp_block::StateUpdateWrapper`, not under `src/`; fields follow the
source's accesses `deployed_contract.address` /
`deployed_contract.class_hash`). -/
structure DeployedContract where
  address : Felt
  class_hash : Felt
deriving DecidableEq

/-- The fields of `StateUpdateWrapper.state_diff` that
`build_commitment_state_diff` reads: deployed contracts, nonces, storage
diffs (per-contract key-value entries, fields `key` / `value` modelled
as pairs) and declared classes `(class_hash, compiled_class_hash)`. -/
structure StateDiffWrapper where
  deployed_contracts : List DeployedContract
  nonces : List (Felt × Felt)
  storage_diffs : List (Felt × List (Felt × Felt))
  declared_classes : List (Felt × Felt)

/-- The state update handed in per block. -/
structure StateUpdateWrapper where
  state_diff : StateDiffWrapper

/-- `IndexMap::insert` on the association-list model: when the key is
already present replace its value in place, otherwise append the pair
at the end. -/
def indexMapInsert (m : List (Felt × α)) (k : Felt) (v : α) : List (Felt × α) :=
  if (List.lookup k m).isSome then
    m.map (fun e => if e.1 = k then (k, v) else e)
  else
    m ++ [(k, v)]

/-- Translation of the source's `build_commitment_state_diff`: build the
four `IndexMap`s by iterating the state update's lists in order; a
deployed contract at address 1 (`ContractAddress::from(Felt252Wrapper::ONE)`,
the system contract) is recorded with class hash zero instead of its
supplied class hash. -/
def build_commitment_state_diff (w : StateUpdateWrapper) : CommitmentStateDiff :=
  let m1 := w.state_diff.deployed_contracts.foldl
    (fun m d => indexMapInsert m d.address (if d.address = 1 then 0 else d.class_hash)) []
  let m2 := w.state_diff.nonces.foldl (fun m e => indexMapInsert m e.1 e.2) []
  let m3 := w.state_diff.storage_diffs.foldl
    (fun m e => indexMapInsert m e.1
      (e.2.foldl (fun sm kv => indexMapInsert sm kv.1 kv.2) [])) []
  let m4 := w.state_diff.declared_classes.foldl (fun m e => indexMapInsert m e.1 e.2) []
  { address_to_class_hash := m1, address_to_nonce := m2,
    storage_updates := m3, class_hash_to_compiled_class_hash := m4 }

theorem lookup_append_of_none {α : Type} (k : Felt) (l1 l2 : List (Felt × α))
    (h : List.lookup k l1 = none) : List.lookup k (l1 ++ l2) = List.lookup k l2 := by
  induction l1 with
  | nil => rfl
  | cons e rest ih =>
    simp only [List.lookup] at h ⊢
    cases hk : (k == e.1) with
    | true => rw [hk] at h; simp at h
    | false =>
      rw [hk] at h
      exact ih h

theorem lookup_map_replace {α : Type} (m : List (Felt × α)) (k : Felt) (v : α) :
    List.lookup k (m.map (fun e => if e.1 = k then (k, v) else e)) =
      if (List.lookup k m).isSome then some v else none := by
  induction m with
  | nil => rfl
  | cons e rest ih =>
    obtain ⟨a, b⟩ := e
    rw [List.map_cons]
    by_cases hak : a = k
    · subst hak
      show List.lookup a ((if a = a then (a, v) else (a, b)) ::
          List.map (fun e => if e.1 = a then (a, v) else e) rest) =
        if (List.lookup a ((a, b) :: rest)).isSome then some v else none
      rw [if_pos rfl]
      simp [List.lookup]
    · show List.lookup k ((if a = k then (k, v) else (a, b)) ::
          List.map (fun e => if e.1 = k then (k, v) else e) rest) =
        if (List.lookup k ((a, b) :: rest)).isSome then some v else none
      rw [if_neg hak]
      have h1 : (k == a) = false := by simp [Ne.symm hak]
      simp only [List.lookup, h1, ih]

theorem lookup_map_replace_ne {α : Type} (m : List (Felt × α)) (k k' : Felt) (v : α)
    (hne : k ≠ k') :
    List.lookup k (m.map (fun e => if e.1 = k' then (k', v) else e)) = List.lookup k m := by
  induction m with
  | nil => rfl
  | cons e rest ih =>
    obtain ⟨a, b⟩ := e
    rw [List.map_cons]
    by_cases hak : a = k'
    · subst hak
      show List.lookup k ((if a = a then (a, v) else (a, b)) ::
          List.map (fun e => if e.1 = a then (a, v) else e) rest) =
        List.lookup k ((a, b) :: rest)
      rw [if_pos rfl]
      have h1 : (k == a) = false := by simp [hne]
      simp only [List.lookup, h1, ih]
    · show List.lookup k ((if a = k' then (k', v) else (a, b)) ::
          List.map (fun e => if e.1 = k' then (k', v) else e) rest) =
        List.lookup k ((a, b) :: rest)
      rw [if_neg hak]
      simp only [List.lookup, ih]

theorem lookup_append_single_ne {α : Type} (m : List (Felt × α)) (k k' : Felt) (v : α)
    (hne : k ≠ k') : List.lookup k (m ++ [(k', v)]) = List.lookup k m := by
  induction m with
  | nil =>
    have h1 : (k == k') = false := by simp [hne]
    simp [List.lookup, h1]
  | cons e rest ih =>
    obtain ⟨a, b⟩ := e
    simp only [List.cons_append, List.lookup]
    cases hke : (k == a) with
    | true => rfl
    | false => exact ih

theorem lookup_indexMapInsert_self {α : Type} (m : List (Felt × α)) (k : Felt) (v : α) :
    List.lookup k (indexMapInsert m k v) = some v := by
  unfold indexMapInsert
  by_cases h : (List.lookup k m).isSome
  · rw [if_pos h, lookup_map_replace, if_pos h]
  · rw [if_neg h]
    rw [lookup_append_of_none k m _ (Option.not_isSome_iff_eq_none.mp h)]
    simp [List.lookup]

theorem lookup_indexMapInsert_ne {α : Type} (m : List (Felt × α)) (k k' : Felt) (v : α)
    (hne : k ≠ k') : List.lookup k (indexMapInsert m k' v) = List.lookup k m := by
  unfold indexMapInsert
  by_cases h : (List.lookup k' m).isSome
  · rw [if_pos h]
    exact lookup_map_replace_ne m k k' v hne
  · rw [if_neg h]
    exact lookup_append_single_ne m k k' v hne

theorem lookup_foldl_indexMapInsert_not_mem {α β : Type} (key : β → Felt) (val : β → α)
    (l : List β) (k : Felt) (hk : k ∉ l.map key) (m0 : List (Felt × α)) :
    List.lookup k (l.foldl (fun m e => indexMapInsert m (key e) (val e)) m0) =
      List.lookup k m0 := by
  induction l generalizing m0 with
  | nil => rfl
  | cons e rest ih =>
    simp only [List.map_cons, List.mem_cons, not_or] at hk
    show List.lookup k
      (rest.foldl (fun m e => indexMapInsert m (key e) (val e))
        (indexMapInsert m0 (key e) (val e))) = List.lookup k m0
    rw [ih hk.2]
    exact lookup_indexMapInsert_ne m0 k (key e) (val e) hk.1

theorem lookup_foldl_indexMapInsert {α β : Type} (key : β → Felt) (val : β → α)
    (l : List β) (hnd : (l.map key).Nodup) (d : β) (hd : d ∈ l) (m0 : List (Felt × α)) :
    List.lookup (key d) (l.foldl (fun m e => indexMapInsert m (key e) (val e)) m0) =
      some (val d) := by
  induction l generalizing m0 with
  | nil => simp at hd
  | cons e rest ih =>
    simp only [List.map_cons, List.nodup_cons] at hnd
    rcases List.mem_cons.mp hd with heq | hmem
    · subst heq
      show List.lookup (key d)
        (rest.foldl (fun m e => indexMapInsert m (key e) (val e))
          (indexMapInsert m0 (key d) (val d))) = some (val d)
      rw [lookup_foldl_indexMapInsert_not_mem key val rest (key d) hnd.1 _]
      exact lookup_indexMapInsert_self m0 (key d) (val d)
    · exact ih hnd.2 hmem _

/-- C10: every deployed contract of the state update whose address is
the field element 1 (the system contract) is recorded in the built
`address_to_class_hash` map with class hash 0, regardless of the class
hash the state update supplies; every other deployed contract keeps its
supplied class hash. -/
theorem build_commitment_state_diff_system_contract (w : StateUpdateWrapper)
    (hnd : (w.state_diff.deployed_contracts.map DeployedContract.address).Nodup)
    (d : DeployedContract) (hd : d ∈ w.state_diff.deployed_contracts) :
    List.lookup d.address (build_commitment_state_diff w).address_to_class_hash =
      some (if d.address = 1 then 0 else d.class_hash) :=
  lookup_foldl_indexMapInsert DeployedContract.address
    (fun d => if d.address = 1 then 0 else d.class_hash)
    w.state_diff.deployed_contracts hnd d hd []

/-- Witness for C10: a state update deploying the system contract at
address 1 with supplied class hash 99 (recorded as 0) and a contract at
address 4 with class hash 12 (kept). -/
theorem build_commitment_state_diff_system_contract_witness :
    (([⟨1, 99⟩, ⟨4, 12⟩] : List DeployedContract).map DeployedContract.address).Nodup ∧
    List.lookup 1 (build_commitment_state_diff
      { state_diff := { deployed_contracts := [⟨1, 99⟩, ⟨4, 12⟩], nonces := [],
                        storage_diffs := [], declared_classes := [] } }).address_to_class_hash =
      some 0 ∧
    List.lookup 4 (build_commitment_state_diff
      { state_diff := { deployed_contracts := [⟨1, 99⟩, ⟨4, 12⟩], nonces := [],
                        storage_diffs := [], declared_classes := [] } }).address_to_class_hash =
      some 12 :=
  ⟨by decide,
   build_commitment_state_diff_system_contract
     { state_diff := { deployed_contracts := [⟨1, 99⟩, ⟨4, 12⟩], nonces := [],
                       storage_diffs := [], declared_classes := [] } }
     (by decide) ⟨1, 99⟩ (by decide),
   build_commitment_state_diff_system_contract
     { state_diff := { deployed_contracts := [⟨1, 99⟩, ⟨4, 12⟩], nonces := [],
                       storage_diffs := [], declared_classes := [] } }
     (by decide) ⟨4, 12⟩ (by decide)⟩

/-!
Determinism of `update_state_root` (claim C4): the result depends only
on the logical contents of the four maps of the diff, not on their
insertion or iteration order.  The key lemma is that a left fold of
key-indexed updates is invariant under permutation when the keys are
distinct and updates at distinct keys commute.
-/

theorem foldl_perm_of_key_comm {σ E : Type} (keyOf : E → Felt) (f : σ → E → σ)
    (hcomm : ∀ s a b, keyOf a ≠ keyOf b → f (f s a) b = f (f s b) a)
    {l1 l2 : List E} (hp : l1.Perm l2) (hnd : (l1.map keyOf).Nodup) (s : σ) :
    l1.foldl f s = l2.foldl f s := by
  induction hp generalizing s with
  | nil => rfl
  | cons x hp ih =>
    simp only [List.map_cons, List.nodup_cons] at hnd
    exact ih hnd.2 (f s x)
  | swap x y l =>
    simp only [List.map_cons, List.nodup_cons, List.mem_cons, not_or] at hnd
    have hxy : keyOf y ≠ keyOf x := hnd.1.1
    show l.foldl f (f (f s y) x) = l.foldl f (f (f s x) y)
    rw [hcomm s y x hxy]
  | trans h1 h2 ih1 ih2 =>
    rw [ih1 hnd s, ih2 ((h1.map keyOf).nodup hnd) s]

theorem updAll_perm (l1 l2 : List (Felt × Felt)) (hp : l1.Perm l2)
    (hnd : (l1.map Prod.fst).Nodup) (m : Felt → Option Felt) :
    updAll m l1 = updAll m l2 := by
  unfold updAll
  apply foldl_perm_of_key_comm Prod.fst _ ?_ hp hnd m
  intro s a b hab
  funext x
  unfold upd
  by_cases hx2 : x = b.1
  · by_cases hx1 : x = a.1
    · exact absurd (hx1.symm.trans hx2) hab
    · simp [hx1, hx2, Ne.symm hab]
  · by_cases hx1 : x = a.1 <;> simp [hx1, hx2, hab]

theorem applyContractStorage_comm (t : Felt → Felt → Option Felt)
    (a b : Felt × List (Felt × Felt)) (hab : a.1 ≠ b.1) :
    applyContractStorage (applyContractStorage t a) b =
      applyContractStorage (applyContractStorage t b) a := by
  funext x
  unfold applyContractStorage
  by_cases hxa : x = a.1
  · have hxb : x ≠ b.1 := fun h => hab (hxa.symm.trans h)
    simp [hxa, hxb, hab]
  · by_cases hxb : x = b.1
    · simp [hxa, hxb, Ne.symm hab]
    · simp [hxa, hxb]

theorem applyStorageUpdates_perm (l1 l2 : List (Felt × List (Felt × Felt)))
    (hp : l1.Perm l2) (hnd : (l1.map Prod.fst).Nodup) (t : Felt → Felt → Option Felt) :
    applyStorageUpdates t l1 = applyStorageUpdates t l2 :=
  foldl_perm_of_key_comm Prod.fst applyContractStorage
    (fun s a b hab => applyContractStorage_comm s a b hab) hp hnd t

/-- Two per-contract storage-update entries carry the same logical
contents: the same contract address and permuted key-value lists. -/
def InnerEquiv (e1 e2 : Felt × List (Felt × Felt)) : Prop :=
  e1.1 = e2.1 ∧ e1.2.Perm e2.2

theorem forall2_inner_fst {l mid : List (Felt × List (Felt × Felt))}
    (h : List.Forall₂ InnerEquiv l mid) : mid.map Prod.fst = l.map Prod.fst := by
  induction h with
  | nil => rfl
  | cons h1 h2 ih => simp [ih, h1.1]

theorem applyStorageUpdates_congr (l1 mid : List (Felt × List (Felt × Felt)))
    (h : List.Forall₂ InnerEquiv l1 mid)
    (hinner : ∀ e ∈ l1, (e.2.map Prod.fst).Nodup) (t : Felt → Felt → Option Felt) :
    applyStorageUpdates t l1 = applyStorageUpdates t mid := by
  induction h generalizing t with
  | nil => rfl
  | @cons a b t1 t2 h1 h2 ih =>
    have hstep : applyContractStorage t a = applyContractStorage t b := by
      obtain ⟨hk, hpm⟩ := h1
      funext x
      unfold applyContractStorage
      rw [hk]
      by_cases hx : x = b.1
      · rw [if_pos hx, if_pos hx, ← hk,
          updAll_perm a.2 b.2 hpm (hinner a (List.mem_cons_self _ _)) (t a.1), hk]
      · rw [if_neg hx, if_neg hx]
    show applyStorageUpdates (applyContractStorage t a) t1 =
      applyStorageUpdates (applyContractStorage t b) t2
    rw [hstep]
    exact ih (fun e he => hinner e (List.mem_cons_of_mem _ he)) _

theorem lookup_perm {α : Type} (l1 l2 : List (Felt × α)) (hp : l1.Perm l2)
    (hnd : (l1.map Prod.fst).Nodup) (k : Felt) :
    List.lookup k l1 = List.lookup k l2 := by
  induction hp with
  | nil => rfl
  | cons x hp ih =>
    simp only [List.map_cons, List.nodup_cons] at hnd
    simp only [List.lookup]
    cases k == x.1 with
    | true => rfl
    | false => exact ih hnd.2
  | swap x y l =>
    simp only [List.map_cons, List.nodup_cons, List.mem_cons, not_or] at hnd
    have hxy : y.1 ≠ x.1 := hnd.1.1
    simp only [List.lookup]
    cases hky : k == y.1 with
    | true =>
      cases hkx : k == x.1 with
      | true =>
        have h1 : k = y.1 := by simpa using hky
        have h2 : k = x.1 := by simpa using hkx
        exact absurd (h1.symm.trans h2) hxy
      | false => rfl
    | false =>
      cases hkx : k == x.1 with
      | true => rfl
      | false => rfl
  | trans h1 h2 ih1 ih2 =>
    rw [ih1 hnd, ih2 ?_]
    have := (h1.map Prod.fst).nodup hnd
    exact this

theorem mapOpt_eq_none_iff (f : α → Option β) (l : List α) :
    mapOpt f l = none ↔ ∃ a ∈ l, f a = none := by
  induction l with
  | nil => simp [mapOpt]
  | cons a as ih =>
    simp only [mapOpt]
    cases hfa : f a with
    | none =>
      exact iff_of_true rfl ⟨a, List.mem_cons_self _ _, hfa⟩
    | some b =>
      cases hrest : mapOpt f as with
      | none =>
        obtain ⟨x, hx, hfx⟩ := ih.mp hrest
        exact iff_of_true rfl ⟨x, List.mem_cons_of_mem _ hx, hfx⟩
      | some bs =>
        refine iff_of_false (by simp) ?_
        rintro ⟨x, hx, hfx⟩
        rcases List.mem_cons.mp hx with rfl | hx'
        · rw [hfa] at hfx
          exact Option.noConfusion hfx
        · rw [ih.mpr ⟨x, hx', hfx⟩] at hrest
          exact Option.noConfusion hrest

theorem mapOpt_eq_some_imp (f : α → Option β) (d : β) :
    ∀ (l : List α) (r : List β), mapOpt f l = some r →
      r = l.map (fun a => (f a).getD d) := by
  intro l
  induction l with
  | nil =>
    intro r h
    simp only [mapOpt] at h
    simp [← Option.some.inj h]
  | cons a as ih =>
    intro r h
    simp only [mapOpt] at h
    cases hfa : f a with
    | none =>
      rw [hfa] at h
      exact absurd h (by simp)
    | some b =>
      rw [hfa] at h
      cases hrest : mapOpt f as with
      | none =>
        rw [hrest] at h
        exact absurd h (by simp)
      | some bs =>
        rw [hrest] at h
        have hr : b :: bs = r := Option.some.inj h
        rw [← hr, List.map_cons, hfa]
        simp [ih bs hrest]

theorem mapOpt_comp_fst {α β : Type} (g : Felt → Option β) (l : List (Felt × α)) :
    mapOpt (fun e => g e.1) l = mapOpt g (l.map Prod.fst) := by
  induction l with
  | nil => rfl
  | cons e rest ih => simp only [mapOpt, List.map_cons, ih]

/-- Well-formedness of a commitment state diff: keys are unique per
mapping (spec section 3), including inside each per-contract storage
map. -/
structure CsdWellFormed (c : CommitmentStateDiff) : Prop where
  nd_ch : (c.address_to_class_hash.map Prod.fst).Nodup
  nd_n : (c.address_to_nonce.map Prod.fst).Nodup
  nd_st : (c.storage_updates.map Prod.fst).Nodup
  nd_inner : ∀ e ∈ c.storage_updates, (e.2.map Prod.fst).Nodup
  nd_cl : (c.class_hash_to_compiled_class_hash.map Prod.fst).Nodup

/-- Semantic equality of two diffs: each of the four maps holds the same
logical contents, in any order (the storage map additionally up to
reordering of each per-contract key-value list). -/
structure CsdEquiv (c1 c2 : CommitmentStateDiff) : Prop where
  hch : c1.address_to_class_hash.Perm c2.address_to_class_hash
  hn : c1.address_to_nonce.Perm c2.address_to_nonce
  hst : ∃ mid, List.Forall₂ InnerEquiv c1.storage_updates mid ∧
    mid.Perm c2.storage_updates
  hcl : c1.class_hash_to_compiled_class_hash.Perm c2.class_hash_to_compiled_class_hash

theorem contract_trie_root_equiv (hs : TrieHashers) (prior : PriorState)
    (st : TrieState) (mbh : Option Nat) (c1 c2 : CommitmentStateDiff)
    (hwf : CsdWellFormed c1) (heq : CsdEquiv c1 c2) :
    contract_trie_root hs c1 prior st mbh = contract_trie_root hs c2 prior st mbh := by
  obtain ⟨mid, hfor, hperm⟩ := heq.hst
  have hmidnd : (mid.map Prod.fst).Nodup := by
    rw [forall2_inner_fst hfor]
    exact hwf.nd_st
  have hSA : applyStorageUpdates st.storage_tries c1.storage_updates =
      applyStorageUpdates st.storage_tries c2.storage_updates := by
    rw [applyStorageUpdates_congr _ mid hfor hwf.nd_inner]
    exact applyStorageUpdates_perm _ _ hperm hmidnd _
  have hlh : ∀ a S, contract_state_leaf_hash hs c1 prior a S mbh =
      contract_state_leaf_hash hs c2 prior a S mbh := by
    intro a S
    unfold contract_state_leaf_hash class_hash
    rw [lookup_perm _ _ heq.hch hwf.nd_ch a, lookup_perm _ _ heq.hn hwf.nd_n a]
  have haddr : (c1.storage_updates.map Prod.fst).Perm
      (c2.storage_updates.map Prod.fst) := by
    rw [← forall2_inner_fst hfor]
    exact hperm.map Prod.fst
  have hg : leafEntry hs c1 prior
        (applyStorageUpdates st.storage_tries c1.storage_updates) mbh =
      leafEntry hs c2 prior
        (applyStorageUpdates st.storage_tries c2.storage_updates) mbh := by
    funext a
    rw [← hSA]
    unfold leafEntry
    rw [hlh a _]
  unfold contract_trie_root collectLeaves
  rw [mapOpt_comp_fst, mapOpt_comp_fst, ← hg]
  have hkey : ∀ a p, leafEntry hs c1 prior
      (applyStorageUpdates st.storage_tries c1.storage_updates) mbh a = some p →
      p.1 = a := by
    intro a p h
    unfold leafEntry at h
    cases hc : contract_state_leaf_hash hs c1 prior a
        (hs.storageRootFn (applyStorageUpdates st.storage_tries c1.storage_updates a)) mbh with
    | none => rw [hc] at h; exact absurd h (by simp)
    | some leaf =>
      rw [hc] at h
      rw [← Option.some.inj h]
  set g := leafEntry hs c1 prior
    (applyStorageUpdates st.storage_tries c1.storage_updates) mbh with hgdef
  set A1 := c1.storage_updates.map Prod.fst with hA1
  set A2 := c2.storage_updates.map Prod.fst with hA2
  cases h1 : mapOpt g A1 with
  | none =>
    have h2 : mapOpt g A2 = none := by
      rw [mapOpt_eq_none_iff] at h1 ⊢
      obtain ⟨a, ha, hfa⟩ := h1
      exact ⟨a, haddr.mem_iff.mp ha, hfa⟩
    rw [h2]
  | some r1 =>
    cases h2 : mapOpt g A2 with
    | none =>
      rw [mapOpt_eq_none_iff] at h2
      obtain ⟨a, ha, hfa⟩ := h2
      have hcontra : mapOpt g A1 = none :=
        (mapOpt_eq_none_iff g A1).mpr ⟨a, haddr.mem_iff.mpr ha, hfa⟩
      rw [h1] at hcontra
      exact Option.noConfusion hcontra
    | some r2 =>
      have hall : ∀ a ∈ A1, g a ≠ none := by
        intro a ha hno
        have hcontra := (mapOpt_eq_none_iff g A1).mpr ⟨a, ha, hno⟩
        rw [h1] at hcontra
        exact Option.noConfusion hcontra
      have hr1 := mapOpt_eq_some_imp g (0, 0) A1 r1 h1
      have hr2 := mapOpt_eq_some_imp g (0, 0) A2 r2 h2
      subst hr1
      subst hr2
      have hmapfst : ((A1.map (fun a => (g a).getD (0, 0))).map Prod.fst) = A1 := by
        rw [List.map_map]
        have hpt : ∀ a ∈ A1, (Prod.fst ∘ fun a => (g a).getD (0, 0)) a = id a := by
          intro a ha
          cases hga : g a with
          | none => exact absurd hga (hall a ha)
          | some p => simp [Function.comp, hga, hkey a p hga]
        rw [List.map_congr_left hpt, List.map_id]
      have hperm_r : (A1.map (fun a => (g a).getD (0, 0))).Perm
          (A2.map (fun a => (g a).getD (0, 0))) := haddr.map _
      have hndr : ((A1.map (fun a => (g a).getD (0, 0))).map Prod.fst).Nodup := by
        rw [hmapfst]
        exact hwf.nd_st
      show some (hs.contractRootFn (updAll st.contract_trie
          (A1.map (fun a => (g a).getD (0, 0))))) =
        some (hs.contractRootFn (updAll st.contract_trie
          (A2.map (fun a => (g a).getD (0, 0)))))
      rw [updAll_perm _ _ hperm_r hndr st.contract_trie]

/-- C4: for every pair of semantically-equal well-formed state diffs
(the same logical contents in each of the four mappings, under any
insertion or iteration order, with unique keys per mapping) applied to
the same prior store state at the same block number,
`update_state_root` returns the identical state root: the per-contract
leaf-hash fan-out and batch-update is an order-independent reduction. -/
theorem update_state_root_deterministic (hs : TrieHashers) (prior : PriorState)
    (st : TrieState) (bn : Nat) (mbh : Option Nat) (c1 c2 : CommitmentStateDiff)
    (hwf : CsdWellFormed c1) (heq : CsdEquiv c1 c2) :
    update_state_root hs c1 prior st bn mbh = update_state_root hs c2 prior st bn mbh := by
  have hclr : class_trie_root hs c1 st = class_trie_root hs c2 st := by
    unfold class_trie_root classTrieAfter
    congr 1
    refine updAll_perm _ _ (heq.hcl.map _) ?_ st.class_trie
    show ((classLeaves hs c1).map Prod.fst).Nodup
    unfold classLeaves
    rw [List.map_map]
    exact hwf.nd_cl
  unfold update_state_root
  rw [contract_trie_root_equiv hs prior st mbh c1 c2 hwf heq, hclr]

/-- First diff for the C4 witness: class-hash map in one order, and
contract 1's storage entries in one order. -/
def csd4a : CommitmentStateDiff :=
  { address_to_class_hash := [(1, 9), (2, 8)], address_to_nonce := [(1, 6)],
    storage_updates := [(1, [(2, 3), (4, 5)])],
    class_hash_to_compiled_class_hash := [(3, 4)] }

/-- Second diff for the C4 witness: the same logical contents with the
class-hash map and the storage entries reordered. -/
def csd4b : CommitmentStateDiff :=
  { address_to_class_hash := [(2, 8), (1, 9)], address_to_nonce := [(1, 6)],
    storage_updates := [(1, [(4, 5), (2, 3)])],
    class_hash_to_compiled_class_hash := [(3, 4)] }

/-- Hashers for the C4 witness. -/
def hs4 : TrieHashers :=
  { pedersen := fun x y => 2 * x + 3 * y + 1, poseidon2 := fun x y => 5 * x + y,
    poseidonMany := fun l => l.foldl (fun a b => a + b) 0 + 1,
    contractRootFn := fun m => (m 1).getD 0, storageRootFn := fun m => (m 2).getD 0,
    classRootFn := fun m => (m 3).getD 0 }

/-- Empty prior tries for the C4 witness. -/
def st4 : TrieState :=
  { contract_trie := fun _ => none, storage_tries := fun _ _ => none,
    class_trie := fun _ => none }

/-- Witness for C4: the two reordered diffs above over the same prior
state produce the same state root. -/
theorem update_state_root_deterministic_witness :
    update_state_root hs4 csd4a prior3 st4 10 none =
      update_state_root hs4 csd4b prior3 st4 10 none :=
  update_state_root_deterministic hs4 prior3 st4 10 none csd4a csd4b
    ⟨by decide, by decide, by decide, by decide, by decide⟩
    ⟨by decide, by decide,
     ⟨csd4b.storage_updates,
      List.Forall₂.cons ⟨rfl, by decide⟩ List.Forall₂.nil, List.Perm.refl _⟩,
     by decide⟩
